import Mathlib

/-!
Verification development for the Lab 2 concurrent HTTP server
(`app/rate_limiter.py`, `app/counter.py`, `app/server.py`).

Python floats are modelled as exact rationals (`ℚ`), Python `dict`s as
association lists with first-match lookup (keys are unique in a Python dict,
and our update function replaces in place, preserving that), and Python
`time.monotonic()` readings as rational timestamps supplied as explicit
arguments (monotonicity becomes an explicit hypothesis where it matters).
-/

namespace Lab2

/-! ### Association-list model of Python `dict` -/

/-- `d.get(k)` on a Python dict: first binding of `k`, if any. -/
def alGet {α : Type} (d : List (String × α)) (k : String) : Option α :=
  match d with
  | [] => none
  | (k', v) :: rest => if k' = k then some v else alGet rest k

/-- `d[k] = v` on a Python dict: replace the binding in place, or append. -/
def alSet {α : Type} (d : List (String × α)) (k : String) (v : α) :
    List (String × α) :=
  match d with
  | [] => [(k, v)]
  | (k', v') :: rest =>
      if k' = k then (k, v) :: rest else (k', v') :: alSet rest k v

theorem alGet_alSet_self {α : Type} (d : List (String × α)) (k : String) (v : α) :
    alGet (alSet d k v) k = some v := by
  induction d with
  | nil => simp [alGet, alSet]
  | cons p rest ih =>
      obtain ⟨k', v'⟩ := p
      by_cases h : k' = k <;> simp [alGet, alSet, h, ih]

theorem alGet_alSet_ne {α : Type} (d : List (String × α)) (k k' : String)
    (v : α) (h : k ≠ k') : alGet (alSet d k v) k' = alGet d k' := by
  induction d with
  | nil => simp [alGet, alSet, h]
  | cons p rest ih =>
      obtain ⟨k₀, v₀⟩ := p
      by_cases h₀ : k₀ = k
      · subst h₀
        simp [alGet, alSet, h]
      · simp [alGet, alSet, h₀, ih]

theorem mem_alSet {α : Type} (d : List (String × α)) (k : String) (v : α)
    (p : String × α) (hp : p ∈ alSet d k v) :
    p = (k, v) ∨ p ∈ d := by
  induction d with
  | nil => simpa [alSet] using hp
  | cons q rest ih =>
      obtain ⟨k₀, v₀⟩ := q
      simp only [alSet] at hp
      split at hp
      case isTrue heq =>
        rcases List.mem_cons.mp hp with h | h
        · exact Or.inl h
        · exact Or.inr (List.mem_cons_of_mem _ h)
      case isFalse heq =>
        rcases List.mem_cons.mp hp with h | h
        · exact Or.inr (by simp [h])
        · rcases ih h with h' | h'
          · exact Or.inl h'
          · exact Or.inr (List.mem_cons_of_mem _ h')

theorem alGet_mem {α : Type} (d : List (String × α)) (k : String) (v : α)
    (h : alGet d k = some v) : (k, v) ∈ d := by
  induction d with
  | nil => simp [alGet] at h
  | cons p rest ih =>
      obtain ⟨k₀, v₀⟩ := p
      simp only [alGet] at h
      split at h
      case isTrue heq =>
        injection h with h
        subst heq
        subst h
        exact List.mem_cons_self _ _
      case isFalse heq =>
        exact List.mem_cons_of_mem _ (ih h)

/-! ### `app/rate_limiter.py` -/

/-- `_Bucket` dataclass: `tokens: float`, `last_refill: float`. -/
structure Bucket where
  tokens : ℚ
  last_refill : ℚ
  deriving DecidableEq

/-- `RateLimiter` state: `_rps`, `_burst` (stored as `float(burst)`), and the
per-IP `_buckets` dict.  The `threading.RLock` serialises `allow`, so calls
are modelled as atomic state transformations. -/
structure RateLimiter where
  rps : ℚ
  burst : ℚ
  buckets : List (String × Bucket)
  deriving DecidableEq

/-- `RateLimiter.__init__(rps, burst)`: raises `ValueError` when `rps <= 0`
or `burst <= 0`, otherwise produces a limiter with an empty bucket map. -/
def mkRateLimiter (rps : ℚ) (burst : ℤ) : Except String RateLimiter :=
  if rps ≤ 0 then .error "rps must be positive"
  else if burst ≤ 0 then .error "burst must be positive"
  else .ok { rps := rps, burst := (burst : ℚ), buckets := [] }

/-- The refill step of `allow`: when `elapsed = now - last_refill > 0`, set
`tokens = min(burst, tokens + elapsed * rps)` and `last_refill = now`. -/
def refillBucket (rps burst now : ℚ) (b : Bucket) : Bucket :=
  if b.last_refill < now then
    { tokens := min burst (b.tokens + (now - b.last_refill) * rps),
      last_refill := now }
  else b

/-- `RateLimiter.allow(ip)` at monotonic time `now`: lazily create the bucket
with `tokens = burst` and `last_refill = now`; refill; consume one token and
admit when `tokens >= 1.0`, else reject leaving the refilled bucket. -/
def RateLimiter.allow (rl : RateLimiter) (now : ℚ) (ip : String) :
    Bool × RateLimiter :=
  let b0 := (alGet rl.buckets ip).getD { tokens := rl.burst, last_refill := now }
  let b := refillBucket rl.rps rl.burst now b0
  if 1 ≤ b.tokens then
    let spent : Bucket := { b with tokens := b.tokens - 1 }
    (true, { rl with buckets := alSet rl.buckets ip spent })
  else
    (false, { rl with buckets := alSet rl.buckets ip b })

theorem allow_rps (rl : RateLimiter) (now : ℚ) (ip : String) :
    ((rl.allow now ip).2).rps = rl.rps := by
  unfold RateLimiter.allow
  dsimp only
  split <;> rfl

theorem allow_burst (rl : RateLimiter) (now : ℚ) (ip : String) :
    ((rl.allow now ip).2).burst = rl.burst := by
  unfold RateLimiter.allow
  dsimp only
  split <;> rfl

/-- The bucket stored for `ip` after `allow` returns. -/
def postBucket (rl : RateLimiter) (now : ℚ) (ip : String) : Bucket :=
  let b0 := (alGet rl.buckets ip).getD { tokens := rl.burst, last_refill := now }
  let b := refillBucket rl.rps rl.burst now b0
  if 1 ≤ b.tokens then { b with tokens := b.tokens - 1 } else b

theorem allow_buckets (rl : RateLimiter) (now : ℚ) (ip : String) :
    ((rl.allow now ip).2).buckets =
      alSet rl.buckets ip (postBucket rl now ip) := by
  unfold RateLimiter.allow postBucket
  dsimp only
  split <;> rfl

theorem refillBucket_bounds (rps burst now : ℚ) (b : Bucket)
    (hrps : 0 ≤ rps) (hburst : 0 ≤ burst) (h0 : 0 ≤ b.tokens)
    (h1 : b.tokens ≤ burst) (h2 : b.last_refill ≤ now) :
    0 ≤ (refillBucket rps burst now b).tokens ∧
      (refillBucket rps burst now b).tokens ≤ burst ∧
      (refillBucket rps burst now b).last_refill ≤ now := by
  unfold refillBucket
  split
  case isTrue h =>
    refine ⟨le_min hburst ?_, min_le_left _ _, le_rfl⟩
    have : 0 ≤ (now - b.last_refill) * rps :=
      mul_nonneg (by linarith) hrps
    linarith
  case isFalse h =>
    exact ⟨h0, h1, h2⟩

theorem postBucket_bounds (rl : RateLimiter) (now : ℚ) (ip : String)
    (hrps : 0 ≤ rl.rps) (hburst : 0 ≤ rl.burst)
    (hwf : ∀ b, alGet rl.buckets ip = some b →
      0 ≤ b.tokens ∧ b.tokens ≤ rl.burst ∧ b.last_refill ≤ now) :
    0 ≤ (postBucket rl now ip).tokens ∧
      (postBucket rl now ip).tokens ≤ rl.burst ∧
      (postBucket rl now ip).last_refill ≤ now := by
  unfold postBucket
  dsimp only
  have hb0 : 0 ≤ ((alGet rl.buckets ip).getD
        { tokens := rl.burst, last_refill := now }).tokens ∧
      ((alGet rl.buckets ip).getD
        { tokens := rl.burst, last_refill := now }).tokens ≤ rl.burst ∧
      ((alGet rl.buckets ip).getD
        { tokens := rl.burst, last_refill := now }).last_refill ≤ now := by
    rcases hget : alGet rl.buckets ip with _ | b
    · simp only [Option.getD_none]
      exact ⟨hburst, le_rfl, le_rfl⟩
    · simp only [Option.getD_some]
      exact hwf b hget
  have hb := refillBucket_bounds rl.rps rl.burst now _ hrps hburst
    hb0.1 hb0.2.1 hb0.2.2
  split
  case isTrue h1 =>
    exact ⟨by dsimp only; linarith [hb.1], by dsimp only; linarith [hb.2.1],
      hb.2.2⟩
  case isFalse h1 =>
    exact hb

/-! Well-formedness of the bucket map at time `t`: every stored bucket has
`0 ≤ tokens ≤ burst` and was last refilled no later than `t`. -/
def BucketsWF (burst t : ℚ) (bs : List (String × Bucket)) : Prop :=
  ∀ p ∈ bs, 0 ≤ p.2.tokens ∧ p.2.tokens ≤ burst ∧ p.2.last_refill ≤ t

theorem allow_preserves_wf (rl : RateLimiter) (t now : ℚ) (ip : String)
    (hrps : 0 ≤ rl.rps) (hburst : 0 ≤ rl.burst)
    (hwf : BucketsWF rl.burst t rl.buckets) (ht : t ≤ now) :
    BucketsWF rl.burst now ((rl.allow now ip).2).buckets := by
  intro p hp
  rw [allow_buckets] at hp
  rcases mem_alSet _ _ _ _ hp with hpe | hpold
  · subst hpe
    exact postBucket_bounds rl now ip hrps hburst (fun b hget => by
      have h := hwf _ (alGet_mem _ _ _ hget)
      exact ⟨h.1, h.2.1, h.2.2.trans ht⟩)
  · have h := hwf _ hpold
    exact ⟨h.1, h.2.1, h.2.2.trans ht⟩

/-- A sequence of `allow` calls, each with its monotonic-clock reading. -/
def runLimiter (rl : RateLimiter) (calls : List (ℚ × String)) : RateLimiter :=
  calls.foldl (fun rl c => (rl.allow c.1 c.2).2) rl

theorem runLimiter_wf (calls : List (ℚ × String)) (rl : RateLimiter) (t : ℚ)
    (hrps : 0 ≤ rl.rps) (hburst : 0 ≤ rl.burst)
    (hwf : BucketsWF rl.burst t rl.buckets)
    (hhead : ∀ x ∈ (calls.map Prod.fst).head?, t ≤ x)
    (hchain : List.Chain' (· ≤ ·) (calls.map Prod.fst)) :
    ∃ u, t ≤ u ∧ BucketsWF rl.burst u (runLimiter rl calls).buckets := by
  induction calls generalizing rl t with
  | nil => exact ⟨t, le_rfl, hwf⟩
  | cons c rest ih =>
      have ht : t ≤ c.1 := hhead c.1 (by simp)
      have hstep := allow_preserves_wf rl t c.1 c.2 hrps hburst hwf ht
      rw [List.map_cons, List.chain'_cons'] at hchain
      have hnext := ih ((rl.allow c.1 c.2).2) c.1
        (by rw [allow_rps]; exact hrps)
        (by rw [allow_burst]; exact hburst)
        (by rw [allow_burst]; exact hstep)
        hchain.1 hchain.2
      rw [allow_burst] at hnext
      have hrun : runLimiter rl (c :: rest) =
          runLimiter ((rl.allow c.1 c.2).2) rest := rfl
      rw [hrun]
      obtain ⟨u, hu, h⟩ := hnext
      exact ⟨u, ht.trans hu, h⟩

/-- **C9.** `RateLimiter.__init__` raises `ValueError` iff `rps ≤ 0` or
`burst ≤ 0`; for positive `rps` and `burst` it returns a limiter with the
given parameters and an empty bucket map. -/
theorem mkRateLimiter_spec (rps : ℚ) (burst : ℤ) :
    ((∃ e, mkRateLimiter rps burst = .error e) ↔ rps ≤ 0 ∨ burst ≤ 0) ∧
    (0 < rps → 0 < burst →
      mkRateLimiter rps burst =
        .ok { rps := rps, burst := (burst : ℚ), buckets := [] }) := by
  unfold mkRateLimiter
  constructor
  · constructor
    · rintro ⟨e, he⟩
      by_cases h1 : rps ≤ 0
      · exact Or.inl h1
      · by_cases h2 : burst ≤ 0
        · exact Or.inr h2
        · simp [h1, h2] at he
    · intro h
      by_cases h1 : rps ≤ 0
      · refine ⟨"rps must be positive", ?_⟩
        simp [h1]
      · rcases h with h | h
        · exact absurd h h1
        · refine ⟨"burst must be positive", ?_⟩
          simp [h1, h]
  · intro h1 h2
    simp [not_le.mpr h1, not_le.mpr h2]

/-- Witness for C9 at `rps = 5`, `burst = 10`. -/
theorem mkRateLimiter_spec_witness :
    0 < (5 : ℚ) ∧ 0 < (10 : ℤ) ∧
      mkRateLimiter 5 10 =
        .ok { rps := 5, burst := (10 : ℚ), buckets := [] } :=
  ⟨by norm_num, by norm_num,
    (mkRateLimiter_spec 5 10).2 (by norm_num) (by norm_num)⟩

/-- The `allow` contract exactly as the spec words it (§4.1): initialize a
missing bucket with `tokens = burst_capacity`; refill
`tokens = min(burst_capacity, tokens + elapsed * rate)` and unconditionally
update `last_refill = now`; consume one token iff `tokens ≥ 1`. -/
def allowSpecModel (rl : RateLimiter) (now : ℚ) (ip : String) :
    Bool × RateLimiter :=
  let b0 := (alGet rl.buckets ip).getD { tokens := rl.burst, last_refill := now }
  let tokens := min rl.burst (b0.tokens + (now - b0.last_refill) * rl.rps)
  if 1 ≤ tokens then
    (true, { rl with buckets := alSet rl.buckets ip ⟨tokens - 1, now⟩ })
  else
    (false, { rl with buckets := alSet rl.buckets ip ⟨tokens, now⟩ })

theorem refillBucket_eq_spec (rps burst now : ℚ) (b : Bucket)
    (h1 : b.last_refill ≤ now) (h2 : b.tokens ≤ burst) :
    refillBucket rps burst now b =
      ⟨min burst (b.tokens + (now - b.last_refill) * rps), now⟩ := by
  unfold refillBucket
  rcases lt_or_eq_of_le h1 with h | h
  · simp [h]
  · rw [← h]
    simp [lt_irrefl, min_eq_right h2]

/-- **C2.** Under the monotonic-clock assumption (`last_refill ≤ now`) and
the token invariant (`tokens ≤ burst`), `RateLimiter.allow` computes exactly
the spec's token-bucket contract: lazy bucket creation with `burst` tokens,
refill by `elapsed * rate` capped at `burst`, admit and consume one token iff
the refilled count is at least 1, otherwise reject leaving only the refill. -/
theorem allow_refines_spec (rl : RateLimiter) (now : ℚ) (ip : String)
    (hwf : ∀ b, alGet rl.buckets ip = some b →
      b.last_refill ≤ now ∧ b.tokens ≤ rl.burst) :
    rl.allow now ip = allowSpecModel rl now ip := by
  unfold RateLimiter.allow allowSpecModel
  dsimp only
  have hb0 : ((alGet rl.buckets ip).getD
        { tokens := rl.burst, last_refill := now }).last_refill ≤ now ∧
      ((alGet rl.buckets ip).getD
        { tokens := rl.burst, last_refill := now }).tokens ≤ rl.burst := by
    rcases hget : alGet rl.buckets ip with _ | b
    · simp only [Option.getD_none]
      exact ⟨le_rfl, le_rfl⟩
    · simp only [Option.getD_some]
      exact hwf b hget
  rw [refillBucket_eq_spec rl.rps rl.burst now _ hb0.1 hb0.2]

/-- Witness for C2: a limiter holding one bucket for `"a"`, queried at a
later time. -/
theorem allow_refines_spec_witness :
    (∀ b, alGet [("a", Bucket.mk 3 0)] "a" = some b →
      b.last_refill ≤ (2 : ℚ) ∧ b.tokens ≤ (10 : ℚ)) ∧
    RateLimiter.allow (RateLimiter.mk 5 10 [("a", Bucket.mk 3 0)]) 2 "a" =
      allowSpecModel (RateLimiter.mk 5 10 [("a", Bucket.mk 3 0)]) 2 "a" :=
  ⟨by decide,
    allow_refines_spec (RateLimiter.mk 5 10 [("a", Bucket.mk 3 0)]) 2 "a"
      (by decide)⟩

/-- **C6.** Starting from a successfully constructed limiter, after any
monotone-in-time sequence of `allow` calls every stored bucket satisfies
`0 ≤ tokens ≤ burst_capacity`. -/
theorem rateLimiter_tokens_invariant (rps : ℚ) (burst : ℤ)
    (rl0 : RateLimiter) (hmk : mkRateLimiter rps burst = .ok rl0)
    (calls : List (ℚ × String))
    (hchain : List.Chain' (· ≤ ·) (calls.map Prod.fst)) :
    ∀ p ∈ (runLimiter rl0 calls).buckets,
      0 ≤ p.2.tokens ∧ p.2.tokens ≤ rl0.burst := by
  unfold mkRateLimiter at hmk
  by_cases h1 : rps ≤ 0
  · simp [h1] at hmk
  by_cases h2 : burst ≤ 0
  · simp [h1, h2] at hmk
  simp only [h1, h2, if_false] at hmk
  injection hmk with hmk
  subst hmk
  have hrps : (0 : ℚ) ≤ rps := le_of_lt (not_le.mp h1)
  have hburst : (0 : ℚ) ≤ (burst : ℚ) := by
    exact_mod_cast le_of_lt (not_le.mp h2)
  cases calls with
  | nil =>
      intro p hp
      simp [runLimiter] at hp
  | cons c rest =>
      have h := runLimiter_wf (c :: rest)
        { rps := rps, burst := (burst : ℚ), buckets := [] } c.1
        hrps hburst
        (by intro p hp; simp at hp)
        (by intro x hx; simp at hx; rw [← hx])
        hchain
      obtain ⟨u, _, h⟩ := h
      intro p hp
      exact ⟨(h p hp).1, (h p hp).2.1⟩

/-- Witness for C6: `rps = 5`, `burst = 10`, two calls at times 0 and 1. -/
theorem rateLimiter_tokens_invariant_witness :
    mkRateLimiter 5 10 = .ok (RateLimiter.mk 5 10 []) ∧
    List.Chain' (· ≤ ·) (([((0 : ℚ), "a"), (1, "a")]).map Prod.fst) ∧
    ∀ p ∈ (runLimiter (RateLimiter.mk 5 10 []) [((0 : ℚ), "a"), (1, "a")]).buckets,
      0 ≤ p.2.tokens ∧ p.2.tokens ≤ (RateLimiter.mk 5 10 []).burst :=
  ⟨by unfold mkRateLimiter; norm_num,
    by norm_num [List.chain'_cons, List.chain'_singleton],
    rateLimiter_tokens_invariant 5 10 (RateLimiter.mk 5 10 [])
      (by unfold mkRateLimiter; norm_num)
      [((0 : ℚ), "a"), (1, "a")]
      (by norm_num [List.chain'_cons, List.chain'_singleton])⟩

/-! ### `app/counter.py` -/

/-- `LockedCounter.inc(key)`: `self._counts[key] = self._counts.get(key, 0) + 1`,
executed atomically under `self._lock`.  Because the whole read-modify-write
is one exclusive section, any concurrent execution of `inc` calls is
equivalent to running them in some sequential order. -/
def lockedInc (d : List (String × ℕ)) (key : String) : List (String × ℕ) :=
  alSet d key ((alGet d key).getD 0 + 1)

/-- `LockedCounter.snapshot()`: `dict(self._counts)` under the lock — a
point-in-time copy of the map. -/
def lockedSnapshot (d : List (String × ℕ)) : List (String × ℕ) := d

theorem lockedInc_count (ks : List String) (d : List (String × ℕ))
    (k : String) :
    (alGet (ks.foldl lockedInc d) k).getD 0 =
      (alGet d k).getD 0 + ks.count k := by
  induction ks generalizing d with
  | nil => simp
  | cons k' rest ih =>
      rw [List.foldl_cons, ih, List.count_cons]
      by_cases h : k' = k
      · subst h
        rw [lockedInc, alGet_alSet_self]
        simp
        ring
      · rw [lockedInc, alGet_alSet_ne _ _ _ _ h]
        have : (k' == k) = false := beq_false_of_ne h
        simp [this]

/-- **C3.** For the synchronized counter, any sequential order of atomic
increments (which is what the lock reduces every concurrent execution to)
leaves `snapshot()` mapping each key to exactly the number of `inc` calls
made with that key; in particular N increments to one key yield exactly N. -/
theorem lockedCounter_exact (ks : List String) (k : String) :
    (alGet (lockedSnapshot (ks.foldl lockedInc [])) k).getD 0 = ks.count k := by
  rw [lockedSnapshot, lockedInc_count]
  simp [alGet]

/-- One thread running `NaiveCounter.inc` is two separately scheduled events:
the read `current = self._counts.get(key, 0)` and — after the deliberate
`time.sleep(0.002)` scheduling point — the write
`self._counts[key] = current + 1`. -/
inductive Phase where
  | start : Phase
  | readv : ℕ → Phase
  | finished : Phase
  deriving DecidableEq

structure NaiveState where
  counts : List (String × ℕ)
  phases : List Phase
  deriving DecidableEq

/-- Let thread `t` take its next step (read if it has not read yet, else
write back its saved value plus one); threads that already wrote, and
out-of-range ids, do nothing. -/
def naiveStep (key : String) (s : NaiveState) (t : ℕ) : NaiveState :=
  match s.phases[t]? with
  | some .start =>
      { s with phases := s.phases.set t (.readv ((alGet s.counts key).getD 0)) }
  | some (.readv v) =>
      { counts := alSet s.counts key (v + 1),
        phases := s.phases.set t .finished }
  | _ => s

/-- Run `N` concurrent `inc key` calls under the interleaving `sched`. -/
def naiveRun (key : String) (N : ℕ) (sched : List ℕ) : NaiveState :=
  sched.foldl (naiveStep key) ⟨[], List.replicate N .start⟩

/-- A schedule is an interleaving of `N` complete `inc` calls: every thread
id below `N` is scheduled exactly twice (its read and its write), and no
other ids occur. -/
abbrev ValidSchedule (N : ℕ) (sched : List ℕ) : Prop :=
  (∀ x ∈ sched, x < N) ∧ ∀ t < N, sched.count t = 2

/-- Number of threads that have completed their write. -/
def countFinished : List Phase → ℕ
  | [] => 0
  | .finished :: rest => countFinished rest + 1
  | .start :: rest => countFinished rest
  | .readv _ :: rest => countFinished rest

theorem countFinished_le_length (l : List Phase) :
    countFinished l ≤ l.length := by
  induction l with
  | nil => simp [countFinished]
  | cons p rest ih =>
      cases p <;> simp [countFinished] <;> omega

theorem countFinished_set (l : List Phase) (t : ℕ) (a b : Phase)
    (h : l[t]? = some a) :
    countFinished (l.set t b) + (if a = .finished then 1 else 0) =
      countFinished l + (if b = .finished then 1 else 0) := by
  induction l generalizing t with
  | nil => simp at h
  | cons p rest ih =>
      cases t with
      | zero =>
          simp only [List.getElem?_cons_zero, Option.some.injEq] at h
          subst h
          clear ih
          cases p <;> cases b <;> simp [countFinished, List.set]
      | succ t =>
          simp only [List.getElem?_cons_succ] at h
          have := ih t h
          cases p <;> simp only [countFinished, List.set] <;> omega

theorem naiveStep_eq_start (key : String) (s : NaiveState) (t : ℕ)
    (hget : s.phases[t]? = some .start) :
    naiveStep key s t =
      { s with phases := s.phases.set t (.readv ((alGet s.counts key).getD 0)) } := by
  unfold naiveStep
  rw [hget]

theorem naiveStep_eq_readv (key : String) (s : NaiveState) (t : ℕ) (v : ℕ)
    (hget : s.phases[t]? = some (.readv v)) :
    naiveStep key s t =
      { counts := alSet s.counts key (v + 1),
        phases := s.phases.set t .finished } := by
  unfold naiveStep
  rw [hget]

theorem naiveStep_eq_finished (key : String) (s : NaiveState) (t : ℕ)
    (hget : s.phases[t]? = some .finished) :
    naiveStep key s t = s := by
  unfold naiveStep
  rw [hget]

theorem naiveStep_eq_none (key : String) (s : NaiveState) (t : ℕ)
    (hget : s.phases[t]? = none) :
    naiveStep key s t = s := by
  unfold naiveStep
  rw [hget]

theorem naiveStep_phases_length (key : String) (s : NaiveState) (t : ℕ) :
    (naiveStep key s t).phases.length = s.phases.length := by
  rcases hget : s.phases[t]? with _ | p
  · rw [naiveStep_eq_none key s t hget]
  · cases p with
    | start => rw [naiveStep_eq_start key s t hget]; simp
    | readv v => rw [naiveStep_eq_readv key s t v hget]; simp
    | finished => rw [naiveStep_eq_finished key s t hget]

theorem naiveFold_phases_length (key : String) (sched : List ℕ)
    (s : NaiveState) :
    (sched.foldl (naiveStep key) s).phases.length = s.phases.length := by
  induction sched generalizing s with
  | nil => rfl
  | cons t rest ih =>
      rw [List.foldl_cons, ih, naiveStep_phases_length]

/-- The lost-update invariant: the stored count never exceeds the number of
completed writes, and every value a thread has read is bounded by the number
of writes completed when it read (hence by the current number). -/
abbrev NaiveInv (key : String) (s : NaiveState) : Prop :=
  (alGet s.counts key).getD 0 ≤ countFinished s.phases ∧
  ∀ (u v : ℕ), s.phases[u]? = some (Phase.readv v) →
    v ≤ countFinished s.phases

theorem naiveStep_inv (key : String) (s : NaiveState) (t : ℕ)
    (h : NaiveInv key s) : NaiveInv key (naiveStep key s t) := by
  obtain ⟨h1, h2⟩ := h
  rcases hget : s.phases[t]? with _ | p
  · rw [naiveStep_eq_none key s t hget]
    exact ⟨h1, h2⟩
  · cases p with
    | finished =>
        rw [naiveStep_eq_finished key s t hget]
        exact ⟨h1, h2⟩
    | start =>
        rw [naiveStep_eq_start key s t hget]
        have hlt : t < s.phases.length := (List.getElem?_eq_some.mp hget).1
        have hcf : countFinished
            (s.phases.set t (.readv ((alGet s.counts key).getD 0))) =
            countFinished s.phases := by
          have := countFinished_set s.phases t _
            (.readv ((alGet s.counts key).getD 0)) hget
          simpa using this
        refine ⟨by rw [hcf]; exact h1, ?_⟩
        intro u v hu
        rw [hcf]
        by_cases hut : t = u
        · subst hut
          rw [List.getElem?_set_self hlt] at hu
          injection hu with hu
          injection hu with hu
          omega
        · rw [List.getElem?_set_ne hut] at hu
          exact h2 u v hu
    | readv v0 =>
        rw [naiveStep_eq_readv key s t v0 hget]
        have hlt : t < s.phases.length := (List.getElem?_eq_some.mp hget).1
        have hcf : countFinished (s.phases.set t .finished) =
            countFinished s.phases + 1 := by
          have := countFinished_set s.phases t _ .finished hget
          simpa using this
        have hv0 := h2 t v0 hget
        constructor
        · dsimp only
          rw [alGet_alSet_self, hcf]
          simp
          omega
        · intro u v hu
          dsimp only at hu
          rw [hcf]
          by_cases hut : t = u
          · subst hut
            rw [List.getElem?_set_self hlt] at hu
            injection hu with hu
            exact absurd hu (by simp)
          · rw [List.getElem?_set_ne hut] at hu
            have := h2 u v hu
            omega

theorem naiveFold_inv (key : String) (sched : List ℕ) (s : NaiveState)
    (h : NaiveInv key s) :
    NaiveInv key (sched.foldl (naiveStep key) s) := by
  induction sched generalizing s with
  | nil => exact h
  | cons t rest ih => exact ih _ (naiveStep_inv key s t h)

theorem naiveRun_le (key : String) (N : ℕ) (sched : List ℕ) :
    (alGet (naiveRun key N sched).counts key).getD 0 ≤ N := by
  have hinit : NaiveInv key ⟨[], List.replicate N .start⟩ := by
    constructor
    · simp [alGet]
    · intro u v hu
      rw [List.getElem?_replicate] at hu
      split at hu
      · exact absurd (Option.some.inj hu) (by simp)
      · exact absurd hu (by simp)
  obtain ⟨h1, -⟩ := naiveFold_inv key sched _ hinit
  have hlen := naiveFold_phases_length key sched ⟨[], List.replicate N .start⟩
  have hcf := countFinished_le_length
    (sched.foldl (naiveStep key) ⟨[], List.replicate N .start⟩).phases
  rw [hlen] at hcf
  simp only [List.length_replicate] at hcf
  unfold naiveRun
  omega

/-- A read-only phase: every listed (distinct, not-yet-started) thread reads
the current value; the counts map is untouched. -/
theorem naive_reads (key : String) (ts : List ℕ) (s : NaiveState)
    (hnodup : ts.Nodup)
    (hstart : ∀ t ∈ ts, s.phases[t]? = some Phase.start) :
    (ts.foldl (naiveStep key) s).counts = s.counts ∧
    (∀ t ∈ ts, (ts.foldl (naiveStep key) s).phases[t]? =
      some (.readv ((alGet s.counts key).getD 0))) ∧
    (∀ u, u ∉ ts → (ts.foldl (naiveStep key) s).phases[u]? = s.phases[u]?) := by
  induction ts generalizing s with
  | nil => exact ⟨rfl, by simp, fun u _ => rfl⟩
  | cons t rest ih =>
      have hget := hstart t (List.mem_cons_self t rest)
      have hlt : t < s.phases.length := (List.getElem?_eq_some.mp hget).1
      have hs1 := naiveStep_eq_start key s t hget
      have hnotmem : t ∉ rest := (List.nodup_cons.mp hnodup).1
      have hrest : ∀ u ∈ rest,
          (naiveStep key s t).phases[u]? = some Phase.start := by
        intro u hu
        rw [hs1]
        dsimp only
        rw [List.getElem?_set_ne (fun he => hnotmem (by rw [he]; exact hu))]
        exact hstart u (List.mem_cons_of_mem t hu)
      have := ih (naiveStep key s t) (List.nodup_cons.mp hnodup).2 hrest
      obtain ⟨ihc, ihr, iho⟩ := this
      rw [List.foldl_cons]
      have hc1 : (naiveStep key s t).counts = s.counts := by rw [hs1]
      refine ⟨by rw [ihc, hc1], ?_, ?_⟩
      · intro u hu
        rcases List.mem_cons.mp hu with rfl | hu
        · rw [iho u hnotmem, hs1]
          dsimp only
          rw [List.getElem?_set_self hlt]
        · rw [ihr u hu, hc1]
      · intro u hu
        rw [iho u (fun h => hu (List.mem_cons_of_mem t h)), hs1]
        dsimp only
        rw [List.getElem?_set_ne
          (fun he => hu (by rw [← he]; exact List.mem_cons_self t rest))]

/-- A write-only phase: every listed thread writes back its read value plus
one; with a common read value `v`, the final count is `v + 1` however many
threads write. -/
theorem naive_writes (key : String) (ts : List ℕ) (s : NaiveState) (v : ℕ)
    (hnodup : ts.Nodup)
    (hread : ∀ t ∈ ts, s.phases[t]? = some (.readv v)) (hne : ts ≠ []) :
    (alGet ((ts.foldl (naiveStep key) s)).counts key).getD 0 = v + 1 := by
  induction ts generalizing s with
  | nil => exact absurd rfl hne
  | cons t rest ih =>
      have hget := hread t (List.mem_cons_self t rest)
      have hs2 := naiveStep_eq_readv key s t v hget
      have hnotmem : t ∉ rest := (List.nodup_cons.mp hnodup).1
      rw [List.foldl_cons]
      rcases hrest : rest with _ | ⟨r, rs⟩
      · rw [hrest] at *
        simp only [List.foldl_nil]
        rw [hs2]
        dsimp only
        rw [alGet_alSet_self]
        rfl
      · rw [← hrest]
        refine ih _ (List.nodup_cons.mp hnodup).2 ?_ ?_
        · intro u hu
          rw [hs2]
          dsimp only
          rw [List.getElem?_set_ne (fun he => hnotmem (by rw [he]; exact hu))]
          exact hread u (List.mem_cons_of_mem t hu)
        · rw [hrest]
          simp

/-- **C4.** For the unsynchronized counter, some interleaving of `N ≥ 2`
concurrent `inc key` calls loses updates — the reads-first-then-writes
schedule ends with a count strictly below `N` — while no interleaving can
ever push the count above `N`. -/
theorem naiveCounter_lost_update (key : String) (N : ℕ) (hN : 2 ≤ N) :
    (∃ sched, ValidSchedule N sched ∧
      (alGet (naiveRun key N sched).counts key).getD 0 < N) ∧
    (∀ sched, ValidSchedule N sched →
      (alGet (naiveRun key N sched).counts key).getD 0 ≤ N) := by
  constructor
  · refine ⟨List.range N ++ List.range N, ⟨?_, ?_⟩, ?_⟩
    · intro x hx
      rcases List.mem_append.mp hx with h | h <;> exact List.mem_range.mp h
    · intro t ht
      rw [List.count_append,
        List.count_eq_one_of_mem (List.nodup_range N) (List.mem_range.mpr ht)]
    · unfold naiveRun
      rw [List.foldl_append]
      have hstart : ∀ t ∈ List.range N,
          ((⟨[], List.replicate N .start⟩ : NaiveState)).phases[t]? =
            some Phase.start := by
        intro t ht
        dsimp only
        rw [List.getElem?_replicate, if_pos (List.mem_range.mp ht)]
      obtain ⟨hc, hr, -⟩ := naive_reads key (List.range N)
        ⟨[], List.replicate N .start⟩ (List.nodup_range N) hstart
      have hval := naive_writes key (List.range N)
        (List.foldl (naiveStep key) ⟨[], List.replicate N .start⟩
          (List.range N))
        ((alGet ((⟨[], List.replicate N .start⟩ : NaiveState)).counts key).getD 0)
        (List.nodup_range N) hr
        (by simp [List.range_eq_nil]; omega)
      rw [hval]
      have : (alGet
          ((⟨[], List.replicate N .start⟩ : NaiveState)).counts key).getD 0
          = 0 := by
        simp [alGet]
      omega
  · intro sched _
    exact naiveRun_le key N sched

/-- Witness for C4 at `key = "/foo"`, `N = 2`. -/
theorem naiveCounter_lost_update_witness :
    2 ≤ 2 ∧
    ((∃ sched, ValidSchedule 2 sched ∧
        (alGet (naiveRun "/foo" 2 sched).counts "/foo").getD 0 < 2) ∧
      (∀ sched, ValidSchedule 2 sched →
        (alGet (naiveRun "/foo" 2 sched).counts "/foo").getD 0 ≤ 2)) :=
  ⟨by norm_num, naiveCounter_lost_update "/foo" 2 (by norm_num)⟩

/-! ### `app/server.py` -/

/-- One record of `RequestHandler._log`. -/
structure LogEntry where
  id : ℕ
  ts : ℚ
  ip : String
  method : String
  path : String
  status : ℕ
  dur_ms : ℚ
  inflight : ℤ
  thread : String
  deriving DecidableEq

/-- Python `round(x, 2)`: round half to even at two decimal places. -/
def pyRound2 (x : ℚ) : ℚ :=
  let y := x * 100
  let n := ⌊y⌋
  let r :=
    if y - n < 1 / 2 then n
    else if 1 / 2 < y - n then n + 1
    else if Even n then n else n + 1
  (r : ℚ) / 100

theorem pyRound2_zero : pyRound2 0 = 0 := by
  unfold pyRound2
  norm_num

/-- `collections.deque(maxlen=cap).append`: push on the right, silently
evicting from the left whatever exceeds the capacity. -/
def dequeAppend (cap : ℕ) (l : List LogEntry) (e : LogEntry) :
    List LogEntry :=
  let grown := l ++ [e]
  if cap < grown.length then grown.drop (grown.length - cap) else grown

/-- The class-level shared state of `RequestHandler` (counter, limiter,
inflight integer, log sequence and deque), all guarded by their locks, so a
request's transitions on them are modelled as atomic. -/
structure ServerState where
  counter : List (String × ℕ)
  limiter : RateLimiter
  inflight : ℤ
  log_seq : ℕ
  logs : List LogEntry
  deriving DecidableEq

/-- `_inflight_inc`: `inflight += 1` under `inflight_lock`. -/
def inflightInc (n : ℤ) : ℤ := n + 1

/-- `_inflight_dec`: decrement under `inflight_lock`, but only when the
count is positive — it clamps at zero. -/
def inflightDec (n : ℤ) : ℤ := if 0 < n then n - 1 else n

/-- `_log`: assign the next sequence id under `logs_lock` and append the
entry to the capacity-1000 deque. -/
def serverLog (st : ServerState) (ts : ℚ) (ip method path : String)
    (status : ℕ) (dur_ms : ℚ) (inflight : ℤ) (thread : String) :
    ServerState :=
  let seq := st.log_seq + 1
  { st with
    log_seq := seq,
    logs := dequeAppend 1000 st.logs
      ⟨seq, ts, ip, method, path, status, pyRound2 dur_ms, inflight, thread⟩ }

/-- Python `str.strip()`: drop whitespace from both ends. -/
def stripChars (cs : List Char) : List Char :=
  ((cs.dropWhile Char.isWhitespace).reverse.dropWhile Char.isWhitespace).reverse

/-- `s.startswith(pre)`. -/
def strBeginsWith (s pre : String) : Bool :=
  pre.data.isPrefixOf s.data

/-- `urlsplit(p).path` for an origin-form request target: everything before
the `?` query or `#` fragment. -/
def pathOnly (p : String) : String :=
  String.mk (p.data.takeWhile (fun c => !(c == '?') && !(c == '#')))

/-- Decimal value of a digit list (underscores already removed). -/
def digitsVal (cs : List Char) : ℕ :=
  cs.foldl (fun a c => a * 10 + (c.toNat - 48)) 0

/-- The digit part of CPython `int(s)`: nonempty decimal digits with single
underscores allowed only between digits; anything else is a `ValueError`. -/
def pyIntDigits (cs : List Char) : Option ℕ :=
  if cs.isEmpty then none
  else if cs.head? = some '_' ∨ cs.getLast? = some '_' then none
  else if (cs.zip cs.tail).any (fun p => p.1 == '_' && p.2 == '_') then none
  else if cs.all (fun c => c.isDigit || c == '_') then
    some (digitsVal (cs.filter (fun c => !(c == '_'))))
  else none

/-- `int(s)` for ASCII strings: strip surrounding whitespace, then an
optional sign and digits; `none` models the `ValueError` the server
catches. -/
def pyInt (s : String) : Option ℤ :=
  match stripChars s.data with
  | '+' :: rest => (pyIntDigits rest).map (fun n => (n : ℤ))
  | '-' :: rest => (pyIntDigits rest).map (fun n => -(n : ℤ))
  | cs => (pyIntDigits cs).map (fun n => (n : ℤ))

/-- `parse_qs(query).get(k, [d])[0]`: the first value bound to `k` in the
parsed query, or the default `d`. -/
def qGetFirst (q : List (String × String)) (k d : String) : String :=
  match q.find? (fun p => p.1 == k) with
  | some p => p.2
  | none => d

/-- `/api/logs`: `since = int(q.get("since", ["0"])[0])` with the
`ValueError` fallback to 0. -/
def apiLogsSince (q : List (String × String)) : ℤ :=
  (pyInt (qGetFirst q "since" "0")).getD 0

/-- `/api/logs`: `last = int(q.get("last", ["100"])[0])` with the
`ValueError` fallback to 100, then `last = max(1, min(500, last))`. -/
def apiLogsLast (q : List (String × String)) : ℤ :=
  max 1 (min 500 ((pyInt (qGetFirst q "last" "100")).getD 100))

/-- `/api/logs` item selection: snapshot the deque; if `since > 0` keep the
entries with `id > since`, otherwise take the last `last` entries
(`items[-last:]`). -/
def apiLogsItems (logs : List LogEntry) (q : List (String × String)) :
    List LogEntry :=
  let since := apiLogsSince q
  let last := apiLogsLast q
  if 0 < since then logs.filter (fun e => since < (e.id : ℤ))
  else logs.drop (logs.length - last.toNat)

/-- `_handle_api` state effect and response status.  Only `/api/reset`
mutates shared state (it clears the counter); the other endpoints build a
JSON body from a snapshot.  `/api/fire` spawns nested requests over real
sockets — environmental behaviour outside this state model — but its own
handler state effect is nil. -/
def handleApi (st : ServerState) (path : String) : ℕ × ServerState :=
  if strBeginsWith path "/api/ping" then (200, st)
  else if strBeginsWith path "/api/info" then (200, st)
  else if strBeginsWith path "/api/reset" then (200, { st with counter := [] })
  else if strBeginsWith path "/api/counter" then (200, st)
  else if strBeginsWith path "/api/inflight" then (200, st)
  else if strBeginsWith path "/api/logs" then (200, st)
  else if strBeginsWith path "/api/fire" then (200, st)
  else (404, st)

/-- The per-request environment of `do_GET`: request data plus the
behaviour of the outside world (clock readings; whether the serve step
raised, and which status `send_response` had captured by then). -/
structure GetEnv where
  trust_xff : Bool
  xff : Option String
  peer_ip : String
  path : String
  q : List (String × String)
  now : ℚ
  serve : Except (Option ℕ) ℕ
  durMs : ℚ
  ts : ℚ
  thread : String

/-- Client-key resolution at the top of `do_GET`: first hop of
`X-Forwarded-For` when trusted, else the transport peer address. -/
def resolveIp (env : GetEnv) : String :=
  match env.xff with
  | some h =>
      if env.trust_xff then
        String.mk (stripChars (h.data.takeWhile (fun c => !(c == ','))))
      else env.peer_ip
  | none => env.peer_ip

structure GetResult where
  raised : Bool
  response : Option ℕ
  state : ServerState
  deriving DecidableEq

/-- `RequestHandler.do_GET`.  `_delay` is `self.delay`: the simulated work
is a pure wait and has no state effect beyond the measured duration, which
arrives through `env.durMs`.  On the success path the `finally` block logs
the captured status and decrements inflight; on the exception path the
`except` block logs (synthesising 499 when no status was sent) and
re-raises, after which the `finally` block logs a second time (defaulting
the still-unset status to 200) and decrements inflight. -/
def doGet (_delay : ℚ) (st : ServerState) (env : GetEnv) : GetResult :=
  let ip := resolveIp env
  if env.path = "/__counts" then
    { raised := false, response := some 200, state := st }
  else if strBeginsWith env.path "/api/" then
    let res := handleApi st env.path
    { raised := false, response := some res.1, state := res.2 }
  else
    let adm := st.limiter.allow env.now ip
    let st1 : ServerState := { st with limiter := adm.2 }
    if !adm.1 then
      let st2 := serverLog st1 env.ts ip "GET" env.path 429 0 st1.inflight
        env.thread
      { raised := false, response := some 429, state := st2 }
    else
      let st2 : ServerState := { st1 with inflight := inflightInc st1.inflight }
      let key := pathOnly env.path
      let st3 : ServerState := { st2 with counter := lockedInc st2.counter key }
      match env.serve with
      | .ok status =>
          let st4 := serverLog st3 env.ts ip "GET" env.path status env.durMs
            st3.inflight env.thread
          { raised := false, response := some status,
            state := { st4 with inflight := inflightDec st4.inflight } }
      | .error captured =>
          let st4 := serverLog st3 env.ts ip "GET" env.path
            (captured.getD 499) env.durMs st3.inflight env.thread
          let st5 := serverLog st4 env.ts ip "GET" env.path
            (captured.getD 200) env.durMs st4.inflight env.thread
          { raised := true, response := captured,
            state := { st5 with inflight := inflightDec st5.inflight } }

/-- The two operations `do_GET` performs on the shared inflight integer. -/
inductive InflightOp where
  | inc : InflightOp
  | dec : InflightOp

def runInflight (ops : List InflightOp) : ℤ :=
  ops.foldl
    (fun n op =>
      match op with
      | .inc => inflightInc n
      | .dec => inflightDec n) 0

theorem runInflight_from_nonneg (ops : List InflightOp) (n : ℤ)
    (h : 0 ≤ n) :
    0 ≤ ops.foldl
      (fun n op =>
        match op with
        | .inc => inflightInc n
        | .dec => inflightDec n) n := by
  induction ops generalizing n with
  | nil => exact h
  | cons op rest ih =>
      rw [List.foldl_cons]
      apply ih
      cases op
      case inc =>
        show 0 ≤ inflightInc n
        unfold inflightInc
        omega
      case dec =>
        show 0 ≤ inflightDec n
        unfold inflightDec
        split <;> omega

/-- **C7.** Starting from zero, every sequence of `_inflight_inc` and
`_inflight_dec` calls keeps the inflight count non-negative, and a
decrement taken at zero is a no-op that leaves the count at zero. -/
theorem inflight_never_negative :
    (∀ ops : List InflightOp, 0 ≤ runInflight ops) ∧ inflightDec 0 = 0 :=
  ⟨fun ops => runInflight_from_nonneg ops 0 le_rfl,
    by unfold inflightDec; simp⟩

/-- **C8.** A non-administrative request denied by the limiter is answered
429 Too Many Requests without raising, one log entry is appended carrying
status 429 and zero duration, and neither the counter map nor the inflight
count changes. -/
theorem rejected_request_frame (delay : ℚ) (st : ServerState) (env : GetEnv)
    (h1 : env.path ≠ "/__counts")
    (h2 : strBeginsWith env.path "/api/" = false)
    (h3 : (st.limiter.allow env.now (resolveIp env)).1 = false) :
    (doGet delay st env).raised = false ∧
    (doGet delay st env).response = some 429 ∧
    (doGet delay st env).state.counter = st.counter ∧
    (doGet delay st env).state.inflight = st.inflight ∧
    (doGet delay st env).state.log_seq = st.log_seq + 1 ∧
    (doGet delay st env).state.logs =
      dequeAppend 1000 st.logs
        ⟨st.log_seq + 1, env.ts, resolveIp env, "GET", env.path, 429, 0,
          st.inflight, env.thread⟩ := by
  unfold doGet
  rw [if_neg h1]
  simp only [h2, Bool.false_eq_true, if_false, h3, Bool.not_false, if_true,
    serverLog, pyRound2_zero]
  simp

/-- Witness for C8: a fresh state whose limiter has an empty bucket for the
client, so the next call is denied. -/
theorem rejected_request_frame_witness :
    ("/x" : String) ≠ "/__counts" ∧
    strBeginsWith "/x" "/api/" = false ∧
    ((RateLimiter.mk 5 10 [("1.2.3.4", Bucket.mk 0 0)]).allow 0 "1.2.3.4").1
      = false ∧
    (doGet 1 ⟨[("/y", 3)], RateLimiter.mk 5 10 [("1.2.3.4", Bucket.mk 0 0)],
        2, 7, []⟩
      ⟨false, none, "1.2.3.4", "/x", [], 0, .ok 200, 0, 50, "w1"⟩).state.counter
      = [("/y", 3)] := by
  refine ⟨by decide, by decide, by decide, ?_⟩
  exact (rejected_request_frame 1
    ⟨[("/y", 3)], RateLimiter.mk 5 10 [("1.2.3.4", Bucket.mk 0 0)], 2, 7, []⟩
    ⟨false, none, "1.2.3.4", "/x", [], 0, .ok 200, 0, 50, "w1"⟩
    (by decide) (by decide) (by decide)).2.2.1

/-- The C1 failing input: a fresh server state and an admitted request
whose serve step raises before any status is sent (a mid-request failure
such as the client disconnecting). -/
def exServerState : ServerState := ⟨[], RateLimiter.mk 5 10 [], 0, 0, []⟩

def exEnv : GetEnv :=
  ⟨false, none, "1.2.3.4", "/index.html", [], 0, .error none, 250, 1000, "w1"⟩

/-- **C1 (evaluated at the failing input).** The worker does release
inflight (it returns to its starting value) and the exception propagates,
but the request is logged TWICE: the except-branch appends the synthetic
499 entry and the finally-block appends a second entry whose unset status
defaults to 200 — not "exactly one log entry" as specified. -/
theorem exception_double_log :
    (doGet 1 exServerState exEnv).raised = true ∧
    (doGet 1 exServerState exEnv).state.inflight = exServerState.inflight ∧
    (doGet 1 exServerState exEnv).state.logs.map LogEntry.status
      = [499, 200] ∧
    (doGet 1 exServerState exEnv).state.log_seq
      = exServerState.log_seq + 2 := by
  decide

/-- **C10.** Each `/api/logs` parameter falls back independently and the
handler raises nothing (the embedding is total): when `since` is missing or
not parseable as an integer the caught `ValueError` yields `since = 0` and
the response is the normal most-recent-`last` selection (whatever `last`
parsed or clamped to); when `last` is missing or unparseable it falls back
to 100 (already inside the clamp range). -/
theorem api_logs_param_fallback (buf : List LogEntry)
    (q : List (String × String)) :
    ((q.find? (fun r => r.1 == "since") = none ∨
        ∃ p, q.find? (fun r => r.1 == "since") = some p ∧ pyInt p.2 = none) →
      apiLogsSince q = 0 ∧
      apiLogsItems buf q =
        buf.drop (buf.length - (apiLogsLast q).toNat)) ∧
    ((q.find? (fun r => r.1 == "last") = none ∨
        ∃ p, q.find? (fun r => r.1 == "last") = some p ∧ pyInt p.2 = none) →
      apiLogsLast q = 100) := by
  constructor
  · intro hs
    have hsince : apiLogsSince q = 0 := by
      unfold apiLogsSince qGetFirst
      rcases hs with h | ⟨p, hp, hpn⟩
      · rw [h]
        decide
      · rw [hp, hpn]
        rfl
    refine ⟨hsince, ?_⟩
    unfold apiLogsItems
    rw [hsince]
    norm_num
  · intro hl
    unfold apiLogsLast qGetFirst
    rcases hl with h | ⟨p, hp, hpn⟩
    · rw [h]
      decide
    · rw [hp, hpn]
      decide

/-- Witness for C10 at the mixed query `since=abc&last=50` — `since` falls
back to 0 while the parsed `last = 50` is used — and at `since=5&last=xyz`
for the independent `last` fallback to 100. -/
theorem api_logs_param_fallback_witness :
    (∃ p, ([("since", "abc"), ("last", "50")]).find?
        (fun r => r.1 == "since") = some p ∧ pyInt p.2 = none) ∧
    (apiLogsSince [("since", "abc"), ("last", "50")] = 0 ∧
      apiLogsItems [] [("since", "abc"), ("last", "50")] =
        List.drop ((List.length ([] : List LogEntry))
          - (apiLogsLast [("since", "abc"), ("last", "50")]).toNat) []) ∧
    apiLogsLast [("since", "abc"), ("last", "50")] = 50 ∧
    (∃ p, ([("since", "5"), ("last", "xyz")]).find?
        (fun r => r.1 == "last") = some p ∧ pyInt p.2 = none) ∧
    apiLogsLast [("since", "5"), ("last", "xyz")] = 100 :=
  ⟨⟨("since", "abc"), rfl, by decide⟩,
    (api_logs_param_fallback [] [("since", "abc"), ("last", "50")]).1
      (Or.inr ⟨("since", "abc"), rfl, by decide⟩),
    by decide,
    ⟨("last", "xyz"), rfl, by decide⟩,
    (api_logs_param_fallback [] [("since", "5"), ("last", "xyz")]).2
      (Or.inr ⟨("last", "xyz"), rfl, by decide⟩)⟩

theorem dequeAppend_eq (cap : ℕ) (l : List LogEntry) (e : LogEntry) :
    dequeAppend cap l e = (l ++ [e]).drop (l.length + 1 - cap) := by
  unfold dequeAppend
  dsimp only
  split
  case isTrue h =>
    congr 1
    simp
  case isFalse h =>
    simp only [List.length_append, List.length_singleton, not_lt] at h
    rw [Nat.sub_eq_zero_of_le h, List.drop_zero]

theorem foldl_dequeAppend (cap : ℕ) (hcap : 0 < cap) (es : List LogEntry) :
    ∀ l : List LogEntry, l.length ≤ cap →
      es.foldl (dequeAppend cap) l =
        (l ++ es).drop (l.length + es.length - cap) := by
  induction es with
  | nil =>
      intro l hl
      simp [Nat.sub_eq_zero_of_le hl]
  | cons e es ih =>
      intro l hl
      rw [List.foldl_cons, dequeAppend_eq cap l e]
      have hlen : ((l ++ [e]).drop (l.length + 1 - cap)).length ≤ cap := by
        rw [List.length_drop]
        simp only [List.length_append, List.length_cons, List.length_nil]
        omega
      rw [ih _ hlen]
      have hd : l.length + 1 - cap ≤ (l ++ [e]).length := by
        simp only [List.length_append, List.length_cons, List.length_nil]
        omega
      have harith : (l.length + 1 - cap) +
          (((l ++ [e]).drop (l.length + 1 - cap)).length + es.length - cap)
          = l.length + (e :: es).length - cap := by
        rw [List.length_drop]
        simp only [List.length_append, List.length_cons, List.length_nil]
        omega
      rw [← List.drop_append_of_le_length hd, List.drop_drop, harith,
        List.append_assoc, List.singleton_append]

/-- **C5.** The deque retains at most the 1000 most recently appended
entries, evicting the oldest; `/api/logs` then returns, for `since > 0`,
exactly the retained entries with id strictly greater than `since`, for
`since ≤ 0` the most recent `last` entries with `last` clamped to
`[1, 500]`, and with no query parameters the most recent 100.  Whatever
ascending id order the buffer has is preserved by the query. -/
theorem log_query_spec (es : List LogEntry) (sSince sLast : String)
    (since last : ℤ) (hs : pyInt sSince = some since)
    (hl : pyInt sLast = some last) :
    es.foldl (dequeAppend 1000) [] = es.drop (es.length - 1000) ∧
    (0 < since →
      apiLogsItems (es.foldl (dequeAppend 1000) [])
          [("since", sSince), ("last", sLast)] =
        (es.foldl (dequeAppend 1000) []).filter
          (fun e => since < (e.id : ℤ))) ∧
    (since ≤ 0 →
      apiLogsItems (es.foldl (dequeAppend 1000) [])
          [("since", sSince), ("last", sLast)] =
        (es.foldl (dequeAppend 1000) []).drop
          ((es.foldl (dequeAppend 1000) []).length
            - (max 1 (min 500 last)).toNat)) ∧
    (apiLogsItems (es.foldl (dequeAppend 1000) []) [] =
      (es.foldl (dequeAppend 1000) []).drop
        ((es.foldl (dequeAppend 1000) []).length - 100)) ∧
    (es.Pairwise (fun a b => a.id < b.id) →
      (apiLogsItems (es.foldl (dequeAppend 1000) [])
          [("since", sSince), ("last", sLast)]).Pairwise
        (fun a b => a.id < b.id)) := by
  have hret : es.foldl (dequeAppend 1000) [] = es.drop (es.length - 1000) := by
    have := foldl_dequeAppend 1000 (by norm_num) es [] (by simp)
    simpa using this
  have hqs : apiLogsSince [("since", sSince), ("last", sLast)] = since := by
    show (pyInt (qGetFirst [("since", sSince), ("last", sLast)]
      "since" "0")).getD 0 = since
    rw [show qGetFirst [("since", sSince), ("last", sLast)] "since" "0"
      = sSince from rfl, hs]
    rfl
  have hql : apiLogsLast [("since", sSince), ("last", sLast)]
      = max 1 (min 500 last) := by
    show max 1 (min 500 ((pyInt (qGetFirst [("since", sSince),
      ("last", sLast)] "last" "100")).getD 100)) = max 1 (min 500 last)
    rw [show qGetFirst [("since", sSince), ("last", sLast)] "last" "100"
      = sLast from rfl, hl]
    rfl
  refine ⟨hret, ?_, ?_, ?_, ?_⟩
  · intro h
    unfold apiLogsItems
    rw [hqs, hql, if_pos h]
  · intro h
    unfold apiLogsItems
    rw [hqs, hql, if_neg (not_lt.mpr h)]
  · rfl
  · intro hp
    have hbuf : (es.foldl (dequeAppend 1000) []).Pairwise
        (fun a b => a.id < b.id) := by
      rw [hret]
      exact hp.sublist (List.drop_sublist _ _)
    unfold apiLogsItems
    dsimp only
    split
    · exact List.Pairwise.sublist (List.filter_sublist _) hbuf
    · exact List.Pairwise.sublist (List.drop_sublist _ _) hbuf

/-- Witness for C5 at `since = 5`, `last = 200` over an empty history. -/
theorem log_query_spec_witness :
    pyInt "5" = some 5 ∧ pyInt "200" = some 200 ∧
    (([] : List LogEntry).foldl (dequeAppend 1000) [] =
      ([] : List LogEntry).drop ((0 : ℕ) - 1000) ∧
      (0 < (5 : ℤ) →
        apiLogsItems (([] : List LogEntry).foldl (dequeAppend 1000) [])
            [("since", "5"), ("last", "200")] =
          (([] : List LogEntry).foldl (dequeAppend 1000) []).filter
            (fun e => (5 : ℤ) < (e.id : ℤ))) ∧
      ((5 : ℤ) ≤ 0 →
        apiLogsItems (([] : List LogEntry).foldl (dequeAppend 1000) [])
            [("since", "5"), ("last", "200")] =
          (([] : List LogEntry).foldl (dequeAppend 1000) []).drop
            ((([] : List LogEntry).foldl (dequeAppend 1000) []).length
              - (max 1 (min 500 (200 : ℤ))).toNat)) ∧
      (apiLogsItems (([] : List LogEntry).foldl (dequeAppend 1000) []) [] =
        (([] : List LogEntry).foldl (dequeAppend 1000) []).drop
          ((([] : List LogEntry).foldl (dequeAppend 1000) []).length - 100)) ∧
      (([] : List LogEntry).Pairwise (fun a b => a.id < b.id) →
        (apiLogsItems (([] : List LogEntry).foldl (dequeAppend 1000) [])
            [("since", "5"), ("last", "200")]).Pairwise
          (fun a b => a.id < b.id))) :=
  ⟨by decide, by decide,
    log_query_spec [] "5" "200" 5 200 (by decide) (by decide)⟩

end Lab2
